import Mathlib

/-!
Verification of the transcription app (src/app.py) against its
natural-language specification.

Python strings are embedded as `List Char` (a Python `str` is a sequence of
code points).  Python floats (the chunk timestamps) are embedded as rationals
`ℚ`; the two-decimal fixed-point formatting `:.2f` is modelled by
round-half-to-even on the exact rational value, which agrees with CPython
whenever the float represents the rational exactly.  Whitespace is the ASCII
whitespace set recognised by `str.strip` and `str.split`.
-/

/-- Embeds a Lean string literal as the `List Char` representation used for
Python strings throughout this development. -/
def strLit (s : String) : List Char :=
  s.data

/-- The ASCII whitespace characters stripped by Python `str.strip()` and used
as separators by `str.split()`. -/
def isPySpace (c : Char) : Bool :=
  c = ' ' || c = '\t' || c = '\n' || c = '\r' || c = '\x0b' || c = '\x0c'

/-- Python `str.lstrip()`: drop leading whitespace. -/
def lstrip (s : List Char) : List Char :=
  s.dropWhile isPySpace

/-- Python `str.rstrip()`: drop trailing whitespace. -/
def rstrip (s : List Char) : List Char :=
  (s.reverse.dropWhile isPySpace).reverse

/-- Python `str.strip()`: drop leading and trailing whitespace. -/
def pyStrip (s : List Char) : List Char :=
  rstrip (lstrip s)

/-- Worker for Python `str.split()` with no separator argument: `acc` holds
the characters of the word currently being scanned, in reverse. -/
def splitWsAux : List Char → List Char → List (List Char)
  | [], acc => if acc = [] then [] else [acc.reverse]
  | c :: cs, acc =>
    if isPySpace c then
      if acc = [] then splitWsAux cs [] else acc.reverse :: splitWsAux cs []
    else
      splitWsAux cs (c :: acc)

/-- Python `str.split()` with no argument: split on runs of whitespace,
discarding empty tokens. -/
def splitWs (s : List Char) : List (List Char) :=
  splitWsAux s []

/-- Tail of a space-join: each remaining word preceded by one space. -/
def joinRest : List (List Char) → List Char
  | [] => []
  | w :: ws => ' ' :: w ++ joinRest ws

/-- Python `' '.join(words)`. -/
def pyJoinSpace : List (List Char) → List Char
  | [] => []
  | w :: ws => w ++ joinRest ws

/-- The decimal digit character for `d` (meaningful for `d < 10`). -/
def digitChar (d : ℕ) : Char :=
  Char.ofNat (48 + d)

/-- Fuel-indexed decimal rendering of a natural number (most significant digit
first); `fuel = n + 1` is always sufficient. -/
def natDigitsAux : ℕ → ℕ → List Char
  | 0, _ => []
  | fuel + 1, n =>
    if n < 10 then [digitChar n]
    else natDigitsAux fuel (n / 10) ++ [digitChar (n % 10)]

/-- Decimal rendering of a natural number. -/
def natDigits (n : ℕ) : List Char :=
  natDigitsAux (n + 1) n

/-- Exactly two decimal digit characters for `m < 100` (zero padded). -/
def twoDigitChars (m : ℕ) : List Char :=
  [digitChar (m / 10), digitChar (m % 10)]

/-- Round-half-to-even of the rational `n / d` (for `d > 0`) to an integer,
CPython's rounding for float formatting.  `Int.fdiv n d` is the floor, and
twice the remainder numerator is compared with the denominator to detect
below-half, above-half and exact-half positions. -/
def roundHalfEvenFrac (n d : ℤ) : ℤ :=
  let f := Int.fdiv n d
  let twiceRem := 2 * (n - f * d)
  if twiceRem < d then f
  else if d < twiceRem then f + 1
  else if f % 2 = 0 then f else f + 1

/-- Fixed-point rendering of a number of hundredths: integer part, a point,
then exactly two fractional digits. -/
def format2fNat (n : ℕ) : List Char :=
  natDigits (n / 100) ++ '.' :: twoDigitChars (n % 100)

/-- Python `f-string` conversion `:.2f`, modelled on the exact rational value
of the float: the value times 100, that is `100 * num / den`, is rounded to
the nearest integer number of hundredths (ties to even) and printed with
exactly two digits after the point. -/
def format2f (q : ℚ) : List Char :=
  let m := roundHalfEvenFrac (100 * q.num) (q.den : ℤ)
  if m < 0 then '-' :: format2fNat m.natAbs else format2fNat m.toNat

/-- One chunk of recogniser output: its text, and an optional pair of start
and end times.  Mirrors the dictionaries in `transcription.get('chunks')`
consumed by `format_transcription` in src/app.py. -/
structure Chunk where
  text : List Char
  timestamp : Option (ℚ × ℚ)

/-- The formatted-transcript line built for one chunk by the loop body of
`format_transcription` (src/app.py lines 51-60), without the trailing
newline: a time-range tag when a timestamp is present (`None` is the only
falsy timestamp value), else the no-timestamp marker, followed by the
stripped text. -/
def formattedLine (c : Chunk) : List Char :=
  match c.timestamp with
  | some (startTime, endTime) =>
    strLit "[" ++ format2f startTime ++ strLit " - " ++ format2f endTime
      ++ strLit "] " ++ pyStrip c.text
  | none => strLit "[No Timestamp] " ++ pyStrip c.text

/-- The loop of `format_transcription` (src/app.py lines 51-65), carrying the
three string accumulators `formatted_text`, `full_text`, `previous_text`. -/
def ftLoop : List Chunk → List Char → List Char → List Char →
    List Char × List Char × List Char
  | [], fmt, full, prev => (fmt, full, prev)
  | c :: cs, fmt, full, prev =>
    if pyStrip c.text ≠ prev then
      ftLoop cs (fmt ++ formattedLine c ++ ['\n'])
        (full ++ pyStrip c.text ++ [' ']) (pyStrip c.text)
    else
      ftLoop cs (fmt ++ formattedLine c ++ ['\n']) full prev

/-- `format_transcription` (src/app.py lines 46-67): accumulators start
empty, and both outputs are stripped at the end. -/
def format_transcription (chunks : List Chunk) : List Char × List Char :=
  let r := ftLoop chunks [] [] []
  (pyStrip r.1, pyStrip r.2.1)

/-- The concatenation of all formatted lines, each followed by the newline
the f-strings of src/app.py lines 58 and 60 append. -/
def linesFlat : List Chunk → List Char
  | [] => []
  | c :: cs => formattedLine c ++ '\n' :: linesFlat cs

/-- The `full_text` accumulator contribution of a chunk list, given the
current `previous_text` state. -/
def fullAux (prev : List Char) : List Chunk → List Char
  | [] => []
  | c :: cs =>
    if pyStrip c.text ≠ prev then
      pyStrip c.text ++ ' ' :: fullAux (pyStrip c.text) cs
    else fullAux prev cs

/-- The final `previous_text` state after a chunk list. -/
def lastPrev (prev : List Char) : List Chunk → List Char
  | [] => prev
  | c :: cs =>
    if pyStrip c.text ≠ prev then lastPrev (pyStrip c.text) cs
    else lastPrev prev cs

/-- The sequence of stripped chunk texts that the loop accepts into
`full_text`, given the current `previous_text` state. -/
def acceptedAux (prev : List Char) : List Chunk → List (List Char)
  | [] => []
  | c :: cs =>
    if pyStrip c.text ≠ prev then pyStrip c.text :: acceptedAux (pyStrip c.text) cs
    else acceptedAux prev cs

/-- The sequence of stripped chunk texts accepted into the flat transcript by
`format_transcription` (state starts at the empty string). -/
def acceptedTexts (chunks : List Chunk) : List (List Char) :=
  acceptedAux [] chunks

/-- Each word followed by one space, concatenated — the raw `full_text`
accumulator shape. -/
def spaceJoinAll : List (List Char) → List Char
  | [] => []
  | w :: ws => w ++ ' ' :: spaceJoinAll ws

/-- Number of lines of a string that does not end in a newline: zero for the
empty string, else one more than the number of newline characters. -/
def countLines (s : List Char) : ℕ :=
  if s = [] then 0 else s.count '\n' + 1

/-- The filtering loop of `remove_repeated_words` (src/app.py lines 73-75):
a word at position `i > 0` is kept when it differs from `words[i - 1]`, the
previous word of the input (kept or not). -/
def cleanAux (prev : List Char) : List (List Char) → List (List Char)
  | [] => []
  | w :: ws => if w = prev then cleanAux w ws else w :: cleanAux w ws

/-- The `cleaned_words` list of `remove_repeated_words`: the word at
position 0 is always kept. -/
def cleanedWords : List (List Char) → List (List Char)
  | [] => []
  | w :: ws => w :: cleanAux w ws

/-- `remove_repeated_words` (src/app.py lines 70-76): split on whitespace,
drop words equal to their predecessor, rejoin with single spaces. -/
def remove_repeated_words (s : List Char) : List Char :=
  pyJoinSpace (cleanedWords (splitWs s))

/-- The spec's description of the dedup filter: keep a token unless it equals
the immediately preceding KEPT token. -/
def keepAux (kept : List Char) : List (List Char) → List (List Char)
  | [] => []
  | w :: ws => if w = kept then keepAux kept ws else w :: keepAux w ws

/-- Spec-side destutter: first token always kept, later tokens kept iff they
differ from the previous kept token. -/
def keepDistinct : List (List Char) → List (List Char)
  | [] => []
  | w :: ws => w :: keepAux w ws

/-- Outcome of the external yt-dlp download call (src/app.py lines 38-39):
it either populates the output path or raises `DownloadError`. -/
inductive DownloadOutcome where
  | success
  | downloadError (msg : List Char)

/-- Outcome of the moviepy decode step (src/app.py lines 139-142): it either
writes the WAV file or raises. -/
inductive DecodeOutcome where
  | success
  | exn

/-- Outcome of the Whisper pipeline call `pipe(path)` (src/app.py lines 102
and 146): it either returns a chunk list or raises. -/
inductive TranscribeOutcome where
  | success (chunks : List Chunk)
  | exn

/-- The failure a run surfaces to the user, if any. -/
inductive PipeError where
  | downloadErrorShown (msg : List Char)
  | caughtException
  | uncaughtException

/-- Observable result of one pipeline run: the temporary files still on disk
when the run ends, the surfaced failure, the delivered transcripts, and
whether the Transcriber was invoked. -/
structure RunResult where
  fs : List String
  surfaced : Option PipeError
  outputs : Option (List Char × List Char)
  transcriberInvoked : Bool

/-- The hardcoded download target of `download_audio_youtube`
(src/app.py line 31, the default `output_path="temp_audio.mp4"`). -/
def downloadOutputPath : String :=
  "temp_audio.mp4"

/-- The hardcoded WAV path of the YouTube branch (src/app.py line 140). -/
def wavFile : String :=
  "temp_audio.wav"

/-- `download_audio_youtube` (src/app.py lines 31-43), called with the
default output path as on line 134: on success it returns the path; on
`DownloadError` it shows an error via `st.error` and returns `None`.
Returns the returned path and the error shown, if any. -/
def download_audio_youtube (outcome : DownloadOutcome) :
    Option String × Option PipeError :=
  match outcome with
  | .success => (some downloadOutputPath, none)
  | .downloadError msg => (none, some (.downloadErrorShown msg))

/-- The uploaded-file branch of `main` (src/app.py lines 91-121): the upload
is written to a fresh uniquely named temporary file (`tempfile` with
`delete=False`), the Transcriber runs, outputs are shown, and only then is
the temporary file removed (line 121).  There is no try/except in this
branch, so an exception from the Transcriber propagates with the file still
on disk. -/
def runUploaded (tempName : String) (tr : TranscribeOutcome) : RunResult :=
  match tr with
  | .exn =>
    { fs := [tempName], surfaced := some .uncaughtException,
      outputs := none, transcriberInvoked := true }
  | .success chunks =>
    { fs := [], surfaced := none,
      outputs := some (format_transcription chunks), transcriberInvoked := true }

/-- The YouTube branch of `main` (src/app.py lines 131-166): download, decode
to WAV, transcribe, show outputs, then remove both files (lines 162-163); a
raised exception is caught by the except on line 165 and shown via
`st.error`, without removing any file.  When the download fails,
`download_audio_youtube` returns `None` and the `if audio_file:` guard on
line 136 skips everything, so the Transcriber is never invoked and no file
exists. -/
def runYoutube (dl : DownloadOutcome) (dec : DecodeOutcome)
    (tr : TranscribeOutcome) : RunResult :=
  match download_audio_youtube dl with
  | (none, err) =>
    { fs := [], surfaced := err, outputs := none, transcriberInvoked := false }
  | (some audioFile, _) =>
    match dec with
    | .exn =>
      { fs := [audioFile], surfaced := some .caughtException,
        outputs := none, transcriberInvoked := false }
    | .success =>
      match tr with
      | .exn =>
        { fs := [audioFile, wavFile], surfaced := some .caughtException,
          outputs := none, transcriberInvoked := true }
      | .success chunks =>
        { fs := [], surfaced := none,
          outputs := some (format_transcription chunks),
          transcriberInvoked := true }

/-- The pair of temporary paths the YouTube branch uses on run number `r`:
the source hardcodes both names (src/app.py lines 31 and 140), so the pair
does not depend on the run. -/
def youtubeTempPaths (_run : ℕ) : String × String :=
  (downloadOutputPath, wavFile)

/-! ## Core lemmas about the formatting loop -/

/-- The loop of `format_transcription` only appends to its accumulators:
its result splits into the initial accumulators followed by the
per-chunk-list contributions. -/
theorem ftLoop_eq (cs : List Chunk) :
    ∀ fmt full prev, ftLoop cs fmt full prev =
      (fmt ++ linesFlat cs, full ++ fullAux prev cs, lastPrev prev cs) := by
  induction cs with
  | nil => intro fmt full prev; simp [ftLoop, linesFlat, fullAux, lastPrev]
  | cons c cs ih =>
    intro fmt full prev
    by_cases h : pyStrip c.text ≠ prev
    · simp [ftLoop, linesFlat, fullAux, lastPrev, h, ih, List.append_assoc]
    · simp [ftLoop, linesFlat, fullAux, lastPrev, h, ih, List.append_assoc]

/-- The formatted output of `format_transcription` is the stripped
concatenation of the per-chunk lines. -/
theorem format_transcription_fst (chunks : List Chunk) :
    (format_transcription chunks).1 = pyStrip (linesFlat chunks) := by
  simp [format_transcription, ftLoop_eq]

/-- The flat output of `format_transcription` is the stripped `full_text`
accumulator. -/
theorem format_transcription_snd (chunks : List Chunk) :
    (format_transcription chunks).2 = pyStrip (fullAux [] chunks) := by
  simp [format_transcription, ftLoop_eq]

/-! ## Claims C9, C8 -/

/-- Claim C9: for the empty chunk sequence, `format_transcription` returns
two empty strings. -/
theorem empty_chunks_give_empty_outputs :
    format_transcription [] = ([], []) := rfl

/-- Claim C8: every timestamped chunk is rendered as a
`[start - end] text` line with both times in two-decimal fixed point and the
text stripped, every chunk without a timestamp as a `[No Timestamp] text`
line; on the three-chunk example of the spec the outputs are exactly the
stated formatted transcript and the flat transcript `hello world goodbye`,
and the no-timestamp example renders as `[No Timestamp] test`. -/
theorem formatting_shape_and_examples :
    (∀ (t : List Char) (s e : ℚ),
      formattedLine ⟨t, some (s, e)⟩ =
        strLit "[" ++ format2f s ++ strLit " - " ++ format2f e
          ++ strLit "] " ++ pyStrip t) ∧
    (∀ t : List Char,
      formattedLine ⟨t, none⟩ = strLit "[No Timestamp] " ++ pyStrip t) ∧
    format_transcription
        [⟨strLit "hello world", some (0, 1)⟩,
         ⟨strLit "hello world", some (1, 2)⟩,
         ⟨strLit "goodbye", some (2, 3)⟩] =
      (strLit "[0.00 - 1.00] hello world\n[1.00 - 2.00] hello world\n[2.00 - 3.00] goodbye",
       strLit "hello world goodbye") ∧
    (format_transcription [⟨strLit "test", none⟩]).1 =
      strLit "[No Timestamp] test" :=
  ⟨fun _ _ _ => rfl, fun _ => rfl, by decide, by decide⟩

/-! ## Claims C1, C4, C5: resource lifecycle of the pipeline -/

/-- Claim C1 counterexample: in the YouTube run where download and decode
succeed and the Transcriber call raises, a failure is surfaced to the caller
while both temporary audio artifacts are still on disk — they are not
deleted before the failure is surfaced. -/
theorem transcriber_raise_leaks_artifacts :
    (runYoutube DownloadOutcome.success DecodeOutcome.success
        TranscribeOutcome.exn).fs = [downloadOutputPath, wavFile] ∧
    (runYoutube DownloadOutcome.success DecodeOutcome.success
        TranscribeOutcome.exn).surfaced = some PipeError.caughtException ∧
    [downloadOutputPath, wavFile] ≠ ([] : List String) :=
  ⟨rfl, rfl, by decide⟩

/-- Claim C1 amended: temporary artifacts are deleted on the success path of
both modes, and none exist when acquisition itself fails; but when the
Transcriber call raises, the artifacts created so far are left on disk in
both modes, and a decode failure in YouTube mode likewise leaves the
downloaded container behind. -/
theorem cleanup_on_success_leak_on_raise (chunks : List Chunk)
    (tempName : String) (msg : List Char) :
    (runUploaded tempName (TranscribeOutcome.success chunks)).fs = [] ∧
    (runYoutube DownloadOutcome.success DecodeOutcome.success
        (TranscribeOutcome.success chunks)).fs = [] ∧
    (runYoutube (DownloadOutcome.downloadError msg) DecodeOutcome.success
        TranscribeOutcome.exn).fs = [] ∧
    (runUploaded tempName TranscribeOutcome.exn).fs = [tempName] ∧
    (runYoutube DownloadOutcome.success DecodeOutcome.success
        TranscribeOutcome.exn).fs = [downloadOutputPath, wavFile] ∧
    (runYoutube DownloadOutcome.success DecodeOutcome.exn
        TranscribeOutcome.exn).fs = [downloadOutputPath] :=
  ⟨rfl, rfl, rfl, rfl, rfl, rfl⟩

/-- Claim C4: when the download of a remote video fails, the pipeline never
invokes the Transcriber, leaves no temporary file behind, surfaces the
download failure with its message, and delivers no outputs. -/
theorem download_failure_halts_cleanly (msg : List Char)
    (dec : DecodeOutcome) (tr : TranscribeOutcome) :
    (runYoutube (DownloadOutcome.downloadError msg) dec tr).transcriberInvoked
        = false ∧
    (runYoutube (DownloadOutcome.downloadError msg) dec tr).fs = [] ∧
    (runYoutube (DownloadOutcome.downloadError msg) dec tr).surfaced
        = some (PipeError.downloadErrorShown msg) ∧
    (runYoutube (DownloadOutcome.downloadError msg) dec tr).outputs = none :=
  ⟨rfl, rfl, rfl, rfl⟩

/-- Claim C5 counterexample: the temporary paths of the YouTube acquisition
are NOT generated uniquely per run — two distinct runs use the very same
hardcoded pair of file names. -/
theorem youtube_paths_not_unique :
    youtubeTempPaths 0 = youtubeTempPaths 1 ∧ (0 : ℕ) ≠ 1 :=
  ⟨rfl, by decide⟩

/-- Claim C5 amended: the YouTube acquisition uses the fixed hardcoded paths
`temp_audio.mp4` and `temp_audio.wav` on every run, so overlapping runs
share artifact paths; only the uploaded-file mode uses a per-run unique
temporary name. -/
theorem youtube_paths_fixed (r₁ r₂ : ℕ) :
    youtubeTempPaths r₁ = youtubeTempPaths r₂ ∧
    youtubeTempPaths r₁ = (downloadOutputPath, wavFile) :=
  ⟨rfl, rfl⟩

/-! ## Claims C6, C7: the word deduplicator -/

/-- Comparing each word with its predecessor in the input (what the source
does) filters exactly like comparing with the previous kept word (what the
spec describes): a dropped word equals its predecessor, so the previous kept
word is always equal to the previous input word. -/
theorem cleanAux_eq_keepAux (ws : List (List Char)) :
    ∀ prev, cleanAux prev ws = keepAux prev ws := by
  induction ws with
  | nil => intro prev; rfl
  | cons w ws ih =>
    intro prev
    by_cases h : w = prev
    · subst h; simp [cleanAux, keepAux, ih]
    · simp [cleanAux, keepAux, h, ih]

/-- Claim C6: `remove_repeated_words` splits on whitespace, keeps a token iff
it differs from the immediately preceding kept token, rejoins with single
spaces; and the spec example evaluates as stated. -/
theorem remove_repeated_words_is_destutter (s : List Char) :
    remove_repeated_words s = pyJoinSpace (keepDistinct (splitWs s)) ∧
    remove_repeated_words (strLit "the the cat sat sat down") =
      strLit "the cat sat down" := by
  refine ⟨?_, by decide⟩
  unfold remove_repeated_words
  cases splitWs s with
  | nil => rfl
  | cons w ws => simp [cleanedWords, keepDistinct, cleanAux_eq_keepAux]

/-- Every word produced by the split worker is nonempty and free of
whitespace characters, provided the accumulator is. -/
theorem splitWsAux_words (s : List Char) :
    ∀ acc, (∀ c ∈ acc, isPySpace c = false) →
      ∀ w ∈ splitWsAux s acc, w ≠ [] ∧ ∀ c ∈ w, isPySpace c = false := by
  induction s with
  | nil =>
    intro acc hacc w hw
    by_cases h : acc = []
    · simp [splitWsAux, h] at hw
    · simp [splitWsAux, h] at hw
      subst hw
      refine ⟨by simpa using h, ?_⟩
      intro c hc
      exact hacc c (List.mem_reverse.mp hc)
  | cons c cs ih =>
    intro acc hacc w hw
    cases hsp : isPySpace c with
    | true =>
      by_cases h : acc = []
      · simp [splitWsAux, hsp, h] at hw
        exact ih [] (by simp) w hw
      · simp [splitWsAux, hsp, h] at hw
        rcases hw with hw | hw
        · subst hw
          refine ⟨by simpa using h, ?_⟩
          intro a ha
          exact hacc a (List.mem_reverse.mp ha)
        · exact ih [] (by simp) w hw
    | false =>
      simp only [splitWsAux, hsp, Bool.false_eq_true, if_false] at hw
      refine ih (c :: acc) ?_ w hw
      intro a ha
      rcases List.mem_cons.mp ha with ha | ha
      · subst ha; exact hsp
      · exact hacc a ha

/-- Every word of `splitWs s` is nonempty and whitespace-free. -/
theorem splitWs_words (s : List Char) :
    ∀ w ∈ splitWs s, w ≠ [] ∧ ∀ c ∈ w, isPySpace c = false :=
  splitWsAux_words s [] (by simp)

/-- The dedup filter only keeps words of its input. -/
theorem cleanAux_subset (ws : List (List Char)) :
    ∀ prev x, x ∈ cleanAux prev ws → x ∈ ws := by
  induction ws with
  | nil => intro prev x hx; simp [cleanAux] at hx
  | cons w ws ih =>
    intro prev x hx
    by_cases h : w = prev
    · subst h
      simp [cleanAux] at hx
      exact List.mem_cons_of_mem w (ih w x hx)
    · simp [cleanAux, h] at hx
      rcases hx with hx | hx
      · simp [hx]
      · exact List.mem_cons_of_mem w (ih w x hx)

/-- `cleanedWords` only keeps words of its input. -/
theorem cleanedWords_subset (ws : List (List Char)) :
    ∀ x ∈ cleanedWords ws, x ∈ ws := by
  cases ws with
  | nil => intro x hx; simp [cleanedWords] at hx
  | cons w ws =>
    intro x hx
    simp only [cleanedWords, List.mem_cons] at hx
    rcases hx with hx | hx
    · simp [hx]
    · exact List.mem_cons_of_mem w (cleanAux_subset ws w x hx)

/-- Scanning a whitespace-free word appends its characters (reversed) to the
split accumulator. -/
theorem splitWsAux_through_word (w : List Char)
    (hw : ∀ c ∈ w, isPySpace c = false) :
    ∀ rest acc, splitWsAux (w ++ rest) acc = splitWsAux rest (w.reverse ++ acc) := by
  induction w with
  | nil => intro rest acc; simp
  | cons c w ih =>
    intro rest acc
    have hc : isPySpace c = false := hw c (by simp)
    have hw' : ∀ a ∈ w, isPySpace a = false := fun a ha => hw a (by simp [ha])
    have h1 : splitWsAux ((c :: w) ++ rest) acc = splitWsAux (w ++ rest) (c :: acc) := by
      simp only [List.cons_append, splitWsAux, hc, Bool.false_eq_true, if_false]
      rfl
    rw [h1, ih hw' rest (c :: acc)]
    simp

/-- Scanning the joined tail of a word list with a nonempty accumulator
recovers the accumulator followed by the word list. -/
theorem splitWsAux_joinRest (ws : List (List Char))
    (hws : ∀ w ∈ ws, w ≠ [] ∧ ∀ c ∈ w, isPySpace c = false) :
    ∀ acc, acc ≠ [] → splitWsAux (joinRest ws) acc = acc.reverse :: ws := by
  induction ws with
  | nil => intro acc hacc; simp [joinRest, splitWsAux, hacc]
  | cons w ws ih =>
    intro acc hacc
    have hw := hws w (by simp)
    have hws' : ∀ u ∈ ws, u ≠ [] ∧ ∀ c ∈ u, isPySpace c = false :=
      fun u hu => hws u (by simp [hu])
    have hsp : isPySpace ' ' = true := by decide
    have h1 : splitWsAux (joinRest (w :: ws)) acc
        = acc.reverse :: splitWsAux (w ++ joinRest ws) [] := by
      simp only [joinRest, splitWsAux, hsp, if_true, if_neg hacc]
      rfl
    rw [h1, splitWsAux_through_word w hw.2 (joinRest ws) [], List.append_nil]
    rw [ih hws' w.reverse (by simpa using hw.1)]
    simp

/-- Splitting is a left inverse of space-joining on lists of nonempty,
whitespace-free words. -/
theorem splitWs_pyJoinSpace (ws : List (List Char))
    (hws : ∀ w ∈ ws, w ≠ [] ∧ ∀ c ∈ w, isPySpace c = false) :
    splitWs (pyJoinSpace ws) = ws := by
  cases ws with
  | nil => rfl
  | cons w ws =>
    have hw := hws w (by simp)
    have hws' : ∀ u ∈ ws, u ≠ [] ∧ ∀ c ∈ u, isPySpace c = false :=
      fun u hu => hws u (by simp [hu])
    unfold splitWs pyJoinSpace
    rw [splitWsAux_through_word w hw.2 (joinRest ws) []]
    rw [splitWsAux_joinRest ws hws' (w.reverse ++ []) (by simpa using hw.1)]
    simp

/-- The kept-word filter produces a list with no two adjacent equal words,
none of them equal to the word kept just before the scan. -/
theorem keepAux_facts (ws : List (List Char)) :
    ∀ kept, List.Chain' (fun a b => a ≠ b) (keepAux kept ws) ∧
      ∀ x, (keepAux kept ws).head? = some x → x ≠ kept := by
  induction ws with
  | nil => intro kept; exact ⟨List.chain'_nil, by simp [keepAux]⟩
  | cons w ws ih =>
    intro kept
    by_cases h : w = kept
    · simpa [keepAux, h] using ih kept
    · refine ⟨?_, ?_⟩
      · rw [show keepAux kept (w :: ws) = w :: keepAux w ws by simp [keepAux, h]]
        refine List.chain'_cons'.mpr ⟨?_, (ih w).1⟩
        intro y hy
        exact fun hwy => ((ih w).2 y hy) hwy.symm
      · intro x hx
        rw [show keepAux kept (w :: ws) = w :: keepAux w ws by simp [keepAux, h]]
          at hx
        simp at hx
        subst hx; exact h

/-- On a list already free of adjacent duplicates relative to the previous
kept word, the kept-word filter keeps everything. -/
theorem keepAux_of_chain (l : List (List Char)) :
    ∀ prev, List.Chain' (fun a b => a ≠ b) (prev :: l) → keepAux prev l = l := by
  induction l with
  | nil => intro prev _; rfl
  | cons x l ih =>
    intro prev hch
    rcases List.chain'_cons.mp hch with ⟨hne, hch'⟩
    have hxp : ¬ (x = prev) := fun h => hne h.symm
    rw [show keepAux prev (x :: l) = x :: keepAux x l by simp [keepAux, hxp]]
    rw [ih x hch']

/-- The source filter is idempotent on word lists. -/
theorem cleanedWords_idem (ws : List (List Char)) :
    cleanedWords (cleanedWords ws) = cleanedWords ws := by
  cases ws with
  | nil => rfl
  | cons w ws =>
    have h1 : cleanedWords (w :: ws) = w :: keepAux w ws := by
      simp [cleanedWords, cleanAux_eq_keepAux]
    have hch : List.Chain' (fun a b => a ≠ b) (w :: keepAux w ws) := by
      refine List.chain'_cons'.mpr ⟨?_, (keepAux_facts ws w).1⟩
      intro y hy
      exact fun hwy => ((keepAux_facts ws w).2 y hy) hwy.symm
    rw [h1]
    show w :: cleanAux w (keepAux w ws) = w :: keepAux w ws
    rw [cleanAux_eq_keepAux, keepAux_of_chain (keepAux w ws) w hch]

/-- Claim C7: `remove_repeated_words` is idempotent. -/
theorem remove_repeated_words_idem (s : List Char) :
    remove_repeated_words (remove_repeated_words s) = remove_repeated_words s := by
  unfold remove_repeated_words
  have hks : ∀ w ∈ cleanedWords (splitWs s),
      w ≠ [] ∧ ∀ c ∈ w, isPySpace c = false :=
    fun w hw => splitWs_words s w (cleanedWords_subset (splitWs s) w hw)
  rw [splitWs_pyJoinSpace (cleanedWords (splitWs s)) hks, cleanedWords_idem]

/-! ## Claim C3: no adjacent duplicates in the flat transcript -/

/-- The accepted-text sequence has no two adjacent equal entries, and its
first entry differs from the incoming state. -/
theorem acceptedAux_facts (cs : List Chunk) :
    ∀ prev, List.Chain' (fun a b => a ≠ b) (acceptedAux prev cs) ∧
      ∀ x, (acceptedAux prev cs).head? = some x → x ≠ prev := by
  induction cs with
  | nil => intro prev; exact ⟨List.chain'_nil, by simp [acceptedAux]⟩
  | cons c cs ih =>
    intro prev
    by_cases h : pyStrip c.text ≠ prev
    · have he : acceptedAux prev (c :: cs)
          = pyStrip c.text :: acceptedAux (pyStrip c.text) cs := by
        simp [acceptedAux, h]
      refine ⟨?_, ?_⟩
      · rw [he]
        refine List.chain'_cons'.mpr ⟨?_, (ih (pyStrip c.text)).1⟩
        intro y hy
        exact fun hcy => ((ih (pyStrip c.text)).2 y hy) hcy.symm
      · intro x hx
        rw [he] at hx
        simp at hx
        subst hx; exact h
    · have he : acceptedAux prev (c :: cs) = acceptedAux prev cs := by
        simp [acceptedAux, h]
      rw [he]
      exact ih prev

/-- The raw `full_text` accumulator is the accepted texts, each followed by
one space. -/
theorem fullAux_eq_spaceJoin (cs : List Chunk) :
    ∀ prev, fullAux prev cs = spaceJoinAll (acceptedAux prev cs) := by
  induction cs with
  | nil => intro prev; rfl
  | cons c cs ih =>
    intro prev
    by_cases h : pyStrip c.text ≠ prev
    · simp [fullAux, acceptedAux, spaceJoinAll, h, ih]
    · simp [fullAux, acceptedAux, h, ih]

/-- Claim C3: the accepted chunk contributions of the flat transcript never
contain two consecutive equal (post-trim) source texts, and the flat
transcript is exactly the stripped space-joined accepted sequence. -/
theorem flat_transcript_no_adjacent_duplicates (chunks : List Chunk) :
    List.Chain' (fun a b => a ≠ b) (acceptedTexts chunks) ∧
    (format_transcription chunks).2 = pyStrip (spaceJoinAll (acceptedTexts chunks)) := by
  refine ⟨(acceptedAux_facts chunks []).1, ?_⟩
  rw [format_transcription_snd, acceptedTexts, fullAux_eq_spaceJoin]

/-! ## Claim C10: leading empty-trim chunks -/

/-- With the state still at its initial empty value, chunks whose text strips
to the empty string are rejected, leaving state and accumulator unchanged. -/
theorem fullAux_empty_prefix (pre : List Chunk)
    (h : ∀ c ∈ pre, pyStrip c.text = []) :
    ∀ rest, fullAux [] (pre ++ rest) = fullAux [] rest := by
  induction pre with
  | nil => intro rest; rfl
  | cons c cs ih =>
    intro rest
    have hc : pyStrip c.text = [] := h c (by simp)
    have h' : ∀ a ∈ cs, pyStrip a.text = [] := fun a ha => h a (by simp [ha])
    have he : fullAux [] ((c :: cs) ++ rest) = fullAux [] (cs ++ rest) := by
      simp [fullAux, hc]
    rw [he, ih h']

/-- Formatted lines concatenate over list append. -/
theorem linesFlat_append (a : List Chunk) :
    ∀ b, linesFlat (a ++ b) = linesFlat a ++ linesFlat b := by
  induction a with
  | nil => intro b; rfl
  | cons c cs ih => intro b; simp [linesFlat, ih]

/-- Claim C10: a leading run of chunks whose texts trim to the empty string
contributes nothing to the flat transcript (the previous-text state starts
as the empty string, so each is rejected), while the formatted transcript
still contains the formatted line of every such chunk. -/
theorem leading_empty_chunks_do_not_reach_flat (pre rest : List Chunk)
    (h : ∀ c ∈ pre, pyStrip c.text = []) :
    (format_transcription (pre ++ rest)).2 = (format_transcription rest).2 ∧
    (format_transcription (pre ++ rest)).1
      = pyStrip (linesFlat pre ++ linesFlat rest) := by
  constructor
  · rw [format_transcription_snd, format_transcription_snd,
      fullAux_empty_prefix pre h rest]
  · rw [format_transcription_fst, linesFlat_append]

/-- Witness for C10 at a concrete input: a chunk of pure whitespace ahead of
a real chunk leaves the flat transcript unchanged. -/
theorem leading_empty_chunks_witness :
    (format_transcription
        ([⟨strLit "  ", none⟩] ++ [⟨strLit "hi", some (0, 1)⟩])).2
      = (format_transcription [⟨strLit "hi", some (0, 1)⟩]).2 :=
  (leading_empty_chunks_do_not_reach_flat
    [⟨strLit "  ", none⟩] [⟨strLit "hi", some (0, 1)⟩] (by decide)).1

/-! ## Claim C2: one formatted line per chunk -/

/-- Dropping from an append does not reach the second list when the first
list survives the drop. -/
theorem dropWhile_append_left (p : Char → Bool) (xs : List Char) :
    ∀ ys, xs.dropWhile p ≠ [] → (xs ++ ys).dropWhile p = xs.dropWhile p ++ ys := by
  induction xs with
  | nil => intro ys h; simp at h
  | cons x xs ih =>
    intro ys h
    cases hp : p x with
    | true =>
      have h2 : List.dropWhile p (x :: xs) = List.dropWhile p xs := by
        simp [List.dropWhile_cons, hp]
      have h3 : List.dropWhile p (x :: (xs ++ ys)) = List.dropWhile p (xs ++ ys) := by
        simp [List.dropWhile_cons, hp]
      rw [h2] at h
      rw [List.cons_append, h3, h2, ih ys h]
    | false =>
      simp [List.dropWhile_cons, hp]

/-- Right stripping distributes over an append whose right part does not
strip to nothing. -/
theorem rstrip_append (a b : List Char) (h : rstrip b ≠ []) :
    rstrip (a ++ b) = a ++ rstrip b := by
  have hb : b.reverse.dropWhile isPySpace ≠ [] := by
    intro hh
    apply h
    unfold rstrip
    rw [hh]
    rfl
  unfold rstrip
  rw [List.reverse_append, dropWhile_append_left _ _ _ hb, List.reverse_append,
    List.reverse_reverse]

/-- Characters of the right strip come from the original string. -/
theorem mem_of_mem_rstrip (l : List Char) (x : Char) (hx : x ∈ rstrip l) :
    x ∈ l := by
  unfold rstrip at hx
  have h1 : x ∈ l.reverse.dropWhile isPySpace := List.mem_reverse.mp hx
  exact List.mem_reverse.mp ((List.dropWhile_sublist ..).mem h1)

/-- A string holding a non-whitespace character does not right-strip to
nothing. -/
theorem rstrip_ne_nil (l : List Char) (x : Char) (hx : x ∈ l)
    (hns : isPySpace x = false) : rstrip l ≠ [] := by
  intro h
  unfold rstrip at h
  rw [List.reverse_eq_nil_iff] at h
  have := List.dropWhile_eq_nil_iff.mp h x (List.mem_reverse.mpr hx)
  rw [hns] at this
  exact absurd this (by simp)

/-- Every character emitted by the digit renderer is a decimal digit. -/
theorem natDigitsAux_mem (fuel : ℕ) :
    ∀ n c, c ∈ natDigitsAux fuel n → ∃ d, d < 10 ∧ c = digitChar d := by
  induction fuel with
  | zero => intro n c hc; simp [natDigitsAux] at hc
  | succ fuel ih =>
    intro n c hc
    by_cases h : n < 10
    · simp [natDigitsAux, h] at hc
      exact ⟨n, h, hc⟩
    · simp [natDigitsAux, h] at hc
      rcases hc with hc | hc
      · exact ih _ c hc
      · exact ⟨n % 10, Nat.mod_lt _ (by norm_num), hc⟩

/-- Decimal digit characters are never the newline character. -/
theorem digitChar_ne_nl (d : ℕ) (hd : d < 10) : digitChar d ≠ '\n' := by
  interval_cases d <;> decide

/-- The fixed-point renderer never emits a newline. -/
theorem format2fNat_ne_nl (n : ℕ) : '\n' ∉ format2fNat n := by
  intro h
  simp only [format2fNat, natDigits, twoDigitChars, List.mem_append,
    List.mem_cons, List.mem_singleton, List.not_mem_nil, or_false] at h
  rcases h with h | h | h | h
  · obtain ⟨d, hd, hc⟩ := natDigitsAux_mem _ _ _ h
    exact digitChar_ne_nl d hd hc.symm
  · exact absurd h (by decide)
  · exact digitChar_ne_nl ((n % 100) / 10) (by omega) h.symm
  · exact digitChar_ne_nl (n % 100 % 10) (by omega) h.symm

/-- The timestamp formatter never emits a newline. -/
theorem format2f_ne_nl (q : ℚ) : '\n' ∉ format2f q := by
  intro h
  simp only [format2f] at h
  by_cases hm : roundHalfEvenFrac (100 * q.num) (q.den : ℤ) < 0
  · simp only [if_pos hm, List.mem_cons] at h
    rcases h with h | h
    · exact absurd h (by decide)
    · exact format2fNat_ne_nl _ h
  · simp only [if_neg hm] at h
    exact format2fNat_ne_nl _ h

/-- A formatted line contains no newline when the stripped chunk text
contains none. -/
theorem formattedLine_ne_nl (c : Chunk) (h : '\n' ∉ pyStrip c.text) :
    '\n' ∉ formattedLine c := by
  rcases c with ⟨t, ts⟩
  intro hm
  cases ts with
  | none =>
    rcases List.mem_append.mp hm with h1 | h1
    · exact absurd h1 (by decide)
    · exact h h1
  | some p =>
    rcases p with ⟨s, e⟩
    rcases List.mem_append.mp hm with h1 | h1
    swap
    · exact h h1
    rcases List.mem_append.mp h1 with h2 | h2
    swap
    · exact absurd h2 (by decide)
    rcases List.mem_append.mp h2 with h3 | h3
    swap
    · exact format2f_ne_nl e h3
    rcases List.mem_append.mp h3 with h4 | h4
    swap
    · exact absurd h4 (by decide)
    rcases List.mem_append.mp h4 with h5 | h5
    · exact absurd h5 (by decide)
    · exact format2f_ne_nl s h5

/-- Every formatted line starts with an opening bracket. -/
theorem formattedLine_eq_cons (c : Chunk) : ∃ r, formattedLine c = '[' :: r := by
  rcases c with ⟨t, ts⟩
  cases ts with
  | none => exact ⟨_, rfl⟩
  | some p => rcases p with ⟨s, e⟩; exact ⟨_, rfl⟩

/-- With newline-free lines, the concatenated formatted text holds exactly
one newline per chunk. -/
theorem count_nl_linesFlat (cs : List Chunk)
    (h : ∀ c ∈ cs, '\n' ∉ formattedLine c) :
    (linesFlat cs).count '\n' = cs.length := by
  induction cs with
  | nil => rfl
  | cons c cs ih =>
    have hc := h c (by simp)
    have h' : ∀ a ∈ cs, '\n' ∉ formattedLine a := fun a ha => h a (by simp [ha])
    show (formattedLine c ++ '\n' :: linesFlat cs).count '\n' = (c :: cs).length
    rw [List.count_append, List.count_cons_self, List.count_eq_zero.mpr hc, ih h']
    simp

/-- Right-stripping discards a trailing newline. -/
theorem rstrip_line_nl (line : List Char) :
    rstrip (line ++ ['\n']) = rstrip line := by
  have hsp : isPySpace '\n' = true := by decide
  unfold rstrip
  rw [List.reverse_append]
  simp [List.dropWhile_cons, hsp]

/-- Right-stripping a newline-free string leaves no newline. -/
theorem count_nl_rstrip_zero (line : List Char) (hnl : '\n' ∉ line) :
    (rstrip line).count '\n' = 0 :=
  List.count_eq_zero.mpr (fun hx => hnl (mem_of_mem_rstrip _ _ hx))

/-- Right-stripping the concatenated newline-free lines removes exactly the
final newline, leaving a nonempty string with one newline between
consecutive lines. -/
theorem rstrip_linesFlat_facts (cs : List Chunk) : cs ≠ [] →
    (∀ c ∈ cs, '\n' ∉ formattedLine c) →
    (rstrip (linesFlat cs)).count '\n' = cs.length - 1 ∧
      rstrip (linesFlat cs) ≠ [] := by
  induction cs with
  | nil => intro h; exact absurd rfl h
  | cons c cs ih =>
    intro _ h
    have hc := h c (by simp)
    cases cs with
    | nil =>
      have hl : linesFlat [c] = formattedLine c ++ ['\n'] := by simp [linesFlat]
      rw [hl, rstrip_line_nl]
      refine ⟨by simpa using count_nl_rstrip_zero _ hc, ?_⟩
      obtain ⟨r, hr⟩ := formattedLine_eq_cons c
      refine rstrip_ne_nil _ '[' ?_ (by decide)
      rw [hr]
      simp
    | cons c2 cs2 =>
      have h' : ∀ a ∈ c2 :: cs2, '\n' ∉ formattedLine a :=
        fun a ha => h a (by simp [ha])
      obtain ⟨ihc, ihne⟩ := ih (by simp) h'
      have hl : linesFlat (c :: c2 :: cs2)
          = (formattedLine c ++ ['\n']) ++ linesFlat (c2 :: cs2) := by
        simp [linesFlat]
      rw [hl, rstrip_append _ _ ihne]
      refine ⟨?_, by simp [ihne]⟩
      rw [List.count_append, List.count_append, ihc,
        List.count_eq_zero.mpr hc]
      simp [List.length_cons]
      omega

/-- The concatenated formatted lines start with a non-space character, so
left stripping is the identity on them. -/
theorem lstrip_linesFlat (c : Chunk) (cs : List Chunk) :
    lstrip (linesFlat (c :: cs)) = linesFlat (c :: cs) := by
  obtain ⟨r, hr⟩ := formattedLine_eq_cons c
  have hb : isPySpace '[' = false := by decide
  have he : linesFlat (c :: cs) = '[' :: (r ++ '\n' :: linesFlat cs) := by
    simp [linesFlat, hr]
  rw [he]
  simp [lstrip, List.dropWhile_cons, hb]

/-- Claim C2: the formatted transcript has exactly one line per chunk, in
chunk order — no chunk is dropped, and chunks without a timestamp also get
their line.  Line counting is well defined because recognised chunk texts
contain no interior newline (the hypothesis). -/
theorem formatted_has_one_line_per_chunk (chunks : List Chunk)
    (h : ∀ c ∈ chunks, '\n' ∉ pyStrip c.text) :
    countLines (format_transcription chunks).1 = chunks.length ∧
    (format_transcription chunks).1 = pyStrip (linesFlat chunks) := by
  refine ⟨?_, format_transcription_fst chunks⟩
  rw [format_transcription_fst]
  cases chunks with
  | nil => rfl
  | cons c cs =>
    have hln : ∀ a ∈ c :: cs, '\n' ∉ formattedLine a :=
      fun a ha => formattedLine_ne_nl a (h a ha)
    obtain ⟨hcount, hne⟩ := rstrip_linesFlat_facts (c :: cs) (by simp) hln
    have hstrip : pyStrip (linesFlat (c :: cs)) = rstrip (linesFlat (c :: cs)) := by
      unfold pyStrip
      rw [lstrip_linesFlat]
    rw [hstrip]
    unfold countLines
    rw [if_neg hne, hcount]
    simp [List.length_cons]

/-- Witness for C2 at a concrete input: a single no-timestamp chunk yields a
one-line formatted transcript. -/
theorem formatted_line_count_witness :
    countLines (format_transcription [⟨strLit "test", none⟩]).1 = 1 :=
  (formatted_has_one_line_per_chunk [⟨strLit "test", none⟩] (by decide)).1
